import Mathlib

/-!
Verification development for the krytenbot release-automation action.

The TypeScript sources are embedded shallowly: strings are Lean `String`s,
but all character-level processing is done on `List Char` via small
structural-recursion helpers mirroring the JavaScript primitives the code
uses (`String.prototype.split`, `String.prototype.startsWith`,
`String.prototype.substring`, `String.prototype.indexOf`,
`String.prototype.replace` with a regex, `minimatch`, `semver.inc`).
-/

namespace Krytenbot

/-- Character-level splitting on a single separator character, matching the
behaviour of JavaScript `str.split(sep)` for a one-character separator:
consecutive separators produce empty fields and the empty string splits to
one empty field. -/
def splitOnChar (sep : Char) : List Char → List (List Char)
  | [] => [[]]
  | c :: cs =>
    if c = sep then [] :: splitOnChar sep cs
    else
      match splitOnChar sep cs with
      | h :: t => (c :: h) :: t
      | [] => [[c]]

/-- JavaScript `a.startsWith(b)` on the embedded strings. -/
def strStartsWith (s pre : String) : Bool :=
  pre.data.isPrefixOf s.data

/-- Whitespace characters recognised by the JavaScript regex class `\s`
(restricted to the ASCII range, which is all the repository ever uses). -/
def jsWhitespace (c : Char) : Bool :=
  c = ' ' || c = '\t' || c = '\n' || c = '\r' || c = Char.ofNat 11 || c = Char.ofNat 12

/-- Word characters recognised by the JavaScript regex class `\w`. -/
def wordChar (c : Char) : Bool :=
  c.isAlphanum || c = '_'

/-- One decimal digit. -/
def digitChar (c : Char) : Bool :=
  c.isDigit

/-- Trim ASCII whitespace from both ends, as `String.prototype.trim` does on
the inputs that occur in this development. -/
def trimChars (cs : List Char) : List Char :=
  ((cs.dropWhile jsWhitespace).reverse.dropWhile jsWhitespace).reverse

/-- Decimal value of a digit string. -/
def digitsToNat (cs : List Char) : Nat :=
  cs.foldl (fun n c => n * 10 + (c.toNat - '0'.toNat)) 0

/-- Numeric identifier of a semantic version: a nonempty digit string with no
leading zero (the `0|[1-9]\d*` alternative of the semver grammar), together
with its value. -/
def parseNumId (cs : List Char) : Option Nat :=
  match cs with
  | [] => none
  | ['0'] => some 0
  | c :: _ =>
    if c = '0' then none
    else if cs.all digitChar then some (digitsToNat cs) else none

/-- Model of the external `semver` library's version parser on the fragment
this repository exercises: an optional leading `v`, then
`major.minor.patch` with numeric no-leading-zero components (release
versions; pre-release/build suffixes are outside the repository's domain and
parse to `none` here). Leading/trailing whitespace is trimmed as the library
does. -/
def parseSemVer (s : String) : Option (Nat × Nat × Nat) :=
  let cs := trimChars s.data
  let cs := match cs with
            | 'v' :: rest => rest
            | _ => cs
  match splitOnChar '.' cs with
  | [a, b, c] =>
    match parseNumId a, parseNumId b, parseNumId c with
    | some ma, some mi, some pa => some (ma, mi, pa)
    | _, _, _ => none
  | _ => none

/-- Model of `semver.inc(version, release)` on release versions: bump the
parsed version by a recognised release type, and return `none` (as the
library does, by catching the thrown error) when the version does not parse
or the release type is not recognised. -/
def semverInc (version release : String) : Option String :=
  match parseSemVer version with
  | none => none
  | some (ma, mi, pa) =>
    if release = "major" then some (toString (ma + 1) ++ ".0.0")
    else if release = "minor" then some (toString ma ++ "." ++ toString (mi + 1) ++ ".0")
    else if release = "patch" then some (toString ma ++ "." ++ toString mi ++ "." ++ toString (pa + 1))
    else none

/-! Data model of `github-helper.ts`. -/

structure Tag where
  name : String
deriving DecidableEq, Repr

structure Tags where
  tags : List Tag
deriving DecidableEq, Repr

structure Branch where
  name : String
deriving DecidableEq, Repr

structure Branches where
  branches : List Branch
deriving DecidableEq, Repr

structure Comment where
  authorLogin : String
  body : String
deriving DecidableEq, Repr

structure PullRequest where
  id : String
  number : Nat
  title : String
  body : String
  createdAt : String
  lastEditedAt : String
  baseRefName : String
  headRefName : String
  comments : List Comment
deriving DecidableEq, Repr

structure PullRequests where
  pullRequests : List PullRequest
deriving DecidableEq, Repr

structure KrytenbotDraftRelease where
  id : String
  tags : Tags
  branches : Branches
  pullRequests : PullRequests
deriving DecidableEq, Repr

namespace Commands

/-- The set-version command prefix, `Commands.SetVersion` in the source. -/
def SetVersion : String := "@krytenbot setversion"

end Commands

/-- Literal `'0.0.1'` returned by `getDefaultNextVersion`. -/
def getDefaultNextVersion : String := "0.0.1"

/-- The version embedded in a tag name: `tagName.substring(tagName.indexOf('@v') + 2)`.
`indexOf` yields the first occurrence or `-1`; the corresponding substring
start is therefore the index after the first `@v`, or `1` when absent. -/
def indexOfAtV : List Char → Option Nat
  | [] => none
  | c :: cs =>
    if c = '@' then
      match cs with
      | 'v' :: _ => some 0
      | _ => (indexOfAtV cs).map (· + 1)
    else (indexOfAtV cs).map (· + 1)

/-- `tagName.substring(tagName.indexOf('@v') + 2)` from `getNextVersion`. -/
def tagVersionOf (tagName : String) : String :=
  match indexOfAtV tagName.data with
  | some i => String.mk (tagName.data.drop (i + 2))
  | none => String.mk (tagName.data.drop 1)

/-- One iteration of the comment loop in `getNextVersion`: a comment whose
body starts with the set-version prefix contributes
`semver.inc(tagVersion, commentBody.split(' ')[2])` when that succeeds, and
nothing otherwise (a missing third token is the JavaScript `undefined`,
which `semver.inc` rejects). -/
def commentOverride (curVersion : String) (c : Comment) : Option String :=
  if strStartsWith c.body Commands.SetVersion then
    match (splitOnChar ' ' c.body.data)[2]? with
    | some tok => semverInc curVersion (String.mk tok)
    | none => none
  else none

/-- The comment loop of `getNextVersion`: returns the first comment override
that produces a valid bumped version, scanning comments in list order. -/
def scanComments (curVersion : String) : List Comment → Option String
  | [] => none
  | c :: rest =>
    match commentOverride curVersion c with
    | some v => some v
    | none => scanComments curVersion rest

/-- The tag loop of `getNextVersion`: for each tag in order, extract the
embedded version, try the comment override of the first pull request (when
one exists), then try bumping by the requested type; fall through to the
next tag when both fail, and to the default version when every tag fails. -/
def tagsNext (prs : List PullRequest) (versionType : String) : List Tag → String
  | [] => getDefaultNextVersion
  | tag :: rest =>
    let tagVersion := tagVersionOf tag.name
    let overrideResult :=
      match prs with
      | [] => none
      | pr :: _ => scanComments tagVersion pr.comments
    match overrideResult with
    | some v => v
    | none =>
      match semverInc tagVersion versionType with
      | some v => v
      | none => tagsNext prs versionType rest

/-- `getNextVersion` from `github-helper.ts` (lines 541-566). -/
def getNextVersion (draftRelease : KrytenbotDraftRelease) (versionType : String) : String :=
  tagsNext draftRelease.pullRequests.pullRequests versionType draftRelease.tags.tags

/-! The `version-helper` module: `patchPackageJson` performs
`fileContents.replace(/"version": "(.*)"/, ...)`.  The JavaScript regex
`replace` is embedded at character level: leftmost match, greedy `(.*)`
(where `.` excludes line terminators), a single replacement, and the
`GetSubstitution` treatment of `$` patterns in the replacement string. -/

/-- Characters matched by the JavaScript regex `.` (everything except the
four line terminators). -/
def jsDot (c : Char) : Bool :=
  c ≠ '\n' && c ≠ '\r' && c ≠ Char.ofNat 0x2028 && c ≠ Char.ofNat 0x2029

/-- The literal part `"version": "` of the pattern. -/
def versionLit : List Char :=
  ("\"version\": \"").data

/-- Match `(.*)"` against a prefix of `r` greedily: the capture extends to
the last `"` inside the maximal run of `.`-matchable characters.  Returns
the capture and the remainder after the closing quote. -/
def greedyQuote : List Char → Option (List Char × List Char)
  | [] => none
  | c :: cs =>
    if jsDot c then
      match greedyQuote cs with
      | some (cap, rest) => some (c :: cap, rest)
      | none => if c = '"' then some ([], cs) else none
    else none

/-- Leftmost match of `/"version": "(.*)"/`: returns the text before the
match, the capture, and the text after the match. -/
def findVersionMatch : List Char → Option (List Char × List Char × List Char)
  | [] => none
  | c :: cs =>
    if versionLit.isPrefixOf (c :: cs) then
      match greedyQuote ((c :: cs).drop versionLit.length) with
      | some (cap, rest) => some ([], cap, rest)
      | none =>
        match findVersionMatch cs with
        | some (before, cap, rest) => some (c :: before, cap, rest)
        | none => none
    else
      match findVersionMatch cs with
      | some (before, cap, rest) => some (c :: before, cap, rest)
      | none => none

/-- The `GetSubstitution` processing JavaScript applies to a replacement
string: `$$` is a literal dollar, `$&` the matched text `m`, a
dollar-backquote the text before the match, a dollar-quote the text after
it, and `$1` (or `$01`) the first capture group; anything else after a
dollar is kept literally.  The regex here has exactly one group. -/
def substGo (m pre post cap : List Char) : Nat → List Char → List Char
  | 0, [] => []
  | 1, [] => ['$']
  | 2, [] => ['$', '0']
  | 0, c :: t =>
    if c = '$' then substGo m pre post cap 1 t
    else c :: substGo m pre post cap 0 t
  | 1, d :: t =>
    if d = '$' then '$' :: substGo m pre post cap 0 t
    else if d = '&' then m ++ substGo m pre post cap 0 t
    else if d = Char.ofNat 96 then pre ++ substGo m pre post cap 0 t
    else if d = Char.ofNat 39 then post ++ substGo m pre post cap 0 t
    else if d = '1' then cap ++ substGo m pre post cap 0 t
    else if d = '0' then substGo m pre post cap 2 t
    else '$' :: d :: substGo m pre post cap 0 t
  | 2, e :: t =>
    if e = '1' then cap ++ substGo m pre post cap 0 t
    else if e = '$' then '$' :: '0' :: substGo m pre post cap 1 t
    else '$' :: '0' :: e :: substGo m pre post cap 0 t
  | _ + 3, l => l

/-- Entry point of the substitution processing; the state of `substGo`
records whether a `$` (state 1) or a `$0` (state 2) has just been read. -/
def substTemplate (m pre post cap tpl : List Char) : List Char :=
  substGo m pre post cap 0 tpl

/-- `patchPackageJson` from `version-helper.ts`:
`fileContents.replace(/"version": "(.*)"/, `"version": "${nextVersion}"`)`. -/
def patchPackageJson (fileContents nextVersion : String) : String :=
  match findVersionMatch fileContents.data with
  | none => fileContents
  | some (before, cap, rest) =>
    String.mk (before ++
      substTemplate (versionLit ++ cap ++ ['"']) before rest cap
        (versionLit ++ nextVersion.data ++ ['"']) ++ rest)

/-- A position `i` of `s` at which `/"version": "(.*)"/` matches: the
literal is present and the following run of `.`-matchable characters
contains a closing quote. -/
def versionFieldAt (s : List Char) (i : Nat) : Bool :=
  versionLit.isPrefixOf (s.drop i) &&
    ((s.drop (i + versionLit.length)).takeWhile jsDot).contains '"'

/-- Characters that can occur in a version string written into the manifest:
no line terminator, no quote, no dollar.  Semantic version strings (digits,
dots, dashes, ASCII letters) all satisfy this. -/
def versionChar (c : Char) : Bool :=
  jsDot c && c ≠ '"' && c ≠ '$'

/-- `semverVersionTypes` from `version-helper.ts`. -/
def semverVersionTypes : List String := ["major", "minor", "patch"]

/-- `isValidSemverVersionType` from `version-helper.ts`. -/
def isValidSemverVersionType (version : String) : Bool :=
  semverVersionTypes.contains version

/-! Relevance filtering: `projects`, `projectsPaths` and
`listProjectsOfRelevance` from `github-helper.ts` (lines 68-69, 359-369). -/

/-- One pattern segment of a minimatch glob against one path segment.
This models the external `minimatch` library restricted to the pattern
forms the repository configures (literal segments and plain `*` segments,
default options): `*` matches a single path segment — never across `/` —
and does not match a segment starting with a dot. -/
def segMatches (pat seg : List Char) : Bool :=
  if pat = ['*'] then !(seg.head? == some '.')
  else pat == seg

/-- Segment lists must have equal length and match pairwise (no globstar in
the configured patterns). -/
def minimatchSegs : List (List Char) → List (List Char) → Bool
  | [], [] => true
  | fseg :: fs, pseg :: ps => segMatches pseg fseg && minimatchSegs fs ps
  | _, _ => false

/-- `minimatch(file, pattern)` on the configured patterns. -/
def minimatch (file pattern : String) : Bool :=
  minimatchSegs (splitOnChar '/' file.data) (splitOnChar '/' pattern.data)

/-- The statically configured project identifiers. -/
def projects : List String := ["core", "grid"]

/-- The statically configured per-project glob patterns. -/
def projectsPaths : List String := ["core/*", "grid/*"]

/-- JavaScript `Set.add` followed by `Array.from`: insertion-ordered,
duplicates ignored. -/
def insertUnique (l : List String) (x : String) : List String :=
  if x ∈ l then l else l ++ [x]

/-- `listProjectsOfRelevance` from `github-helper.ts`: every changed file is
tested against every configured project's glob; matching projects are
accumulated in a set. -/
def listProjectsOfRelevance (files : List String) : List String :=
  files.foldl
    (fun acc file =>
      (projects.zip projectsPaths).foldl
        (fun acc2 pp => if minimatch file pp.2 then insertUnique acc2 pp.1 else acc2)
        acc)
    []

/-! The `markdown.ts` helpers and the pull-request body/marker pair. -/

/-- `hidden` from `markdown.ts`. -/
def hidden (message : String) : String :=
  "[//]: # (" ++ message ++ ")"

/-- `important` from `markdown.ts`. -/
def important (message : String) : String :=
  "> [!IMPORTANT]\n> " ++ message

/-- `getPullRequestTitle` from `github-helper.ts`. -/
def getPullRequestTitle (project nextVersion : String) : String :=
  "Release `" ++ project ++ "` v" ++ nextVersion

/-- The fixed template pushed at the end of `getPullRequestBody`
(the backquoted template literal of lines 298-313). -/
def prBodyTemplate (nextVersion : String) : String :=
  "\nThis PR was created automatically by the Krytenbot to track the next release. \nThe next version for this release is v"
    ++ nextVersion
    ++ ".\n\n---\n\n<details>\n<summary>Krytenbot commands and options</summary>\n<br />\n\nYou can trigger Krytenbot actions by commenting on this PR:\n- `@krytenbot rebase` will rebase this PR\n- `@krytenbot recreate` will recreate this PR, overwriting any edits that have been made to it\n- `@krytenbot setversion [major|minor|patch]` will set the version for this PR\n</details>\n  "

/-- `getPullRequestBody` from `github-helper.ts` (lines 283-316): the parts
pushed onto the `body` array, joined. -/
def getPullRequestBody (project nextVersion : String) (rebasing : Bool) : String :=
  hidden ("krytenbot-project:" ++ project) ++ "\n"
    ++ (if rebasing then
          hidden "krytenbot-start" ++ "\n\n" ++ important "Krytenbot is rebasing this PR"
            ++ "\n\n" ++ hidden "krytenbot-end" ++ "\n"
        else "")
    ++ prBodyTemplate nextVersion

/-- Attempted match of `/\[\/\/]:\s#\s\(krytenbot-project:(\w+)\)/` at the
head of the character list: the literal pieces, one whitespace character for
each `\s`, then a maximal nonempty run of word characters that must be
followed by a closing parenthesis. -/
def extractAt : List Char → Option String
  | '[' :: '/' :: '/' :: ']' :: ':' :: w1 :: '#' :: w2 :: '(' :: 'k' :: 'r' :: 'y' :: 't' :: 'e'
      :: 'n' :: 'b' :: 'o' :: 't' :: '-' :: 'p' :: 'r' :: 'o' :: 'j' :: 'e' :: 'c' :: 't' :: ':'
      :: rest =>
    if jsWhitespace w1 && jsWhitespace w2 then
      let run := rest.takeWhile wordChar
      match rest.drop run.length with
      | ')' :: _ => if run.isEmpty then none else some (String.mk run)
      | _ => none
    else none
  | _ => none

/-- Leftmost-match scan for the marker regex. -/
def extractScan : List Char → Option String
  | [] => none
  | c :: rest =>
    match extractAt (c :: rest) with
    | some r => some r
    | none => extractScan rest

/-- `extractProjectNameFromPR` from `github-helper.ts` (lines 248-251):
the first capture of the marker regex, or `null`. -/
def extractProjectNameFromPR (text : String) : Option String :=
  extractScan text.data

/-! The comment-event handler of `main.ts` (lines 110-130), embedded as the
pure outcome it decides: a body not starting with the set-version prefix is
ignored, a set-version body with an invalid or missing third token reaches
`core.setFailed('Invalid version type: ...')` and performs no mutation, and
only a valid token reaches the set-version mutation path. -/

inductive CommentOutcome where
  /-- The body does not start with the set-version command prefix; the
  handler does nothing. -/
  | notACommand : CommentOutcome
  /-- The handler calls `core.setFailed` with the invalid (or missing)
  version-type token and performs no mutation. -/
  | invalidCommandArgument : Option String → CommentOutcome
  /-- The handler proceeds to compute and commit the new version using the
  given bump type. -/
  | setVersionApplied : String → CommentOutcome
deriving DecidableEq, Repr

/-- Decision structure of `issueCommentEvent` in `main.ts`:
`commentPayload.comment.body.startsWith(Commands.SetVersion)`, then
`body.split(' ')[2]` checked with `isValidSemverVersionType` (a missing
token is the JavaScript `undefined`, which the membership test rejects). -/
def issueCommentOutcome (body : String) : CommentOutcome :=
  if strStartsWith body Commands.SetVersion then
    match (splitOnChar ' ' body.data)[2]? with
    | some tok =>
      if isValidSemverVersionType (String.mk tok) then .setVersionApplied (String.mk tok)
      else .invalidCommandArgument (some (String.mk tok))
    | none => .invalidCommandArgument none
  else .notACommand

/-! Helper lemmas about the comment and tag loops of `getNextVersion`. -/

theorem commentOverride_of_not_cmd (cv : String) (c : Comment)
    (h : strStartsWith c.body Commands.SetVersion = false) :
    commentOverride cv c = none := by
  simp [commentOverride, h]

theorem scanComments_of_all_none (cv : String) (cs : List Comment)
    (h : ∀ x ∈ cs, commentOverride cv x = none) :
    scanComments cv cs = none := by
  induction cs with
  | nil => rfl
  | cons a as ih =>
    have ha := h a (List.mem_cons_self a as)
    simp only [scanComments, ha]
    exact ih fun x hx => h x (List.mem_cons_of_mem a hx)

theorem scanComments_first_some (cv : String) (pre post : List Comment) (c : Comment) (v : String)
    (hpre : ∀ x ∈ pre, commentOverride cv x = none)
    (hc : commentOverride cv c = some v) :
    scanComments cv (pre ++ c :: post) = some v := by
  induction pre with
  | nil => simp only [List.nil_append, scanComments, hc]
  | cons a as ih =>
    have ha := hpre a (List.mem_cons_self a as)
    simp only [List.cons_append, scanComments, ha]
    exact ih fun x hx => hpre x (List.mem_cons_of_mem a hx)

theorem tagsNext_cons_nil (versionType : String) (t : Tag) (rest : List Tag) :
    tagsNext [] versionType (t :: rest) =
      (match semverInc (tagVersionOf t.name) versionType with
       | some v => v
       | none => tagsNext [] versionType rest) := rfl

theorem tagsNext_cons_pr (pr : PullRequest) (tl : List PullRequest) (versionType : String)
    (t : Tag) (rest : List Tag) :
    tagsNext (pr :: tl) versionType (t :: rest) =
      (match scanComments (tagVersionOf t.name) pr.comments with
       | some v => v
       | none =>
         match semverInc (tagVersionOf t.name) versionType with
         | some v => v
         | none => tagsNext (pr :: tl) versionType rest) := rfl

/-- C5: a draft release with an empty tag sequence yields the literal
default version `0.0.1` for every requested bump type and every branch and
pull-request (hence comment) history. -/
theorem getNextVersion_empty_tags_default (id : String) (brs : Branches) (prs : PullRequests)
    (versionType : String) :
    getNextVersion ⟨id, ⟨[]⟩, brs, prs⟩ versionType = "0.0.1" := rfl

/-- C2 counterexample: with two tags `proj@v1.0.0` then `proj@v2.5.7`, no
pull request and requested bump `minor`, `getNextVersion` returns `1.1.0`,
computed from the FIRST tag, although bumping the version of the last tag
would give `2.6.0`; so the result is not determined by the last tag. -/
theorem getNextVersion_last_tag_counterexample :
    getNextVersion ⟨"id", ⟨[⟨"proj@v1.0.0"⟩, ⟨"proj@v2.5.7"⟩]⟩, ⟨[]⟩, ⟨[]⟩⟩ "minor" = "1.1.0" ∧
    semverInc (tagVersionOf "proj@v2.5.7") "minor" = some "2.6.0" ∧
    ("1.1.0" : String) ≠ "2.6.0" := by
  refine ⟨by decide, by decide, by decide⟩

/-- C2 amended: with no set-version comment in sight, `getNextVersion`
extracts the current version from the FIRST tag of the tag sequence and
returns it bumped by the requested type whenever that bump succeeds; later
tags do not affect the result.  In particular a single tag `proj@v1.2.3`
with bump `minor` yields `1.3.0`. -/
theorem getNextVersion_first_tag (id : String) (brs : Branches) (t : Tag) (rest : List Tag)
    (prs : List PullRequest) (versionType v : String)
    (hnoc : ∀ pr ∈ prs, ∀ c ∈ pr.comments, strStartsWith c.body Commands.SetVersion = false)
    (hinc : semverInc (tagVersionOf t.name) versionType = some v) :
    getNextVersion ⟨id, ⟨t :: rest⟩, brs, ⟨prs⟩⟩ versionType = v := by
  show tagsNext prs versionType (t :: rest) = v
  cases prs with
  | nil => rw [tagsNext_cons_nil, hinc]
  | cons pr tl =>
    have hnone : scanComments (tagVersionOf t.name) pr.comments = none :=
      scanComments_of_all_none _ _ fun x hx =>
        commentOverride_of_not_cmd _ _ (hnoc pr (List.mem_cons_self pr tl) x hx)
    rw [tagsNext_cons_pr, hnone, hinc]

/-- C2 witness: a single valid tag with a later tag present; the first tag
decides, `proj@v1.2.3` bumped by `minor` is `1.3.0`. -/
theorem getNextVersion_first_tag_witness :
    getNextVersion ⟨"id", ⟨[⟨"proj@v1.2.3"⟩, ⟨"proj@v9.9.9"⟩]⟩, ⟨[]⟩, ⟨[]⟩⟩ "minor" = "1.3.0" :=
  getNextVersion_first_tag "id" ⟨[]⟩ ⟨"proj@v1.2.3"⟩ [⟨"proj@v9.9.9"⟩] [] "minor" "1.3.0"
    (by intro pr hpr; cases hpr) (by decide)

/-- C1 counterexample: tag `proj@v1.2.3`, a pull request whose comments are
`@krytenbot setversion patch` followed by the more recent
`@krytenbot setversion major`: the code answers `1.2.4` (the EARLIEST
set-version comment wins), not `2.0.0` as the most-recent-comment rule
would require. -/
theorem getNextVersion_recent_override_counterexample :
    getNextVersion ⟨"id", ⟨[⟨"proj@v1.2.3"⟩]⟩, ⟨[]⟩,
        ⟨[⟨"p", 5, "t", "b", "c", "l", "main", "krytenbot-proj",
          [⟨"user", "@krytenbot setversion patch"⟩,
           ⟨"user", "@krytenbot setversion major"⟩]⟩]⟩⟩ "minor" = "1.2.4" ∧
    semverInc "1.2.3" "major" = some "2.0.0" ∧
    ("1.2.4" : String) ≠ "2.0.0" := by
  refine ⟨by decide, by decide, by decide⟩

/-- C1 amended: when a pull request exists, `getNextVersion` uses the bump
type of the EARLIEST comment (first in comment order) whose set-version
argument produces a valid bump of the first tag's version, and this
override result is returned regardless of the requested bump type. -/
theorem getNextVersion_earliest_override (id : String) (brs : Branches) (t : Tag)
    (rest : List Tag) (pr : PullRequest) (prtl : List PullRequest)
    (pre post : List Comment) (c : Comment) (v : String)
    (hcomments : pr.comments = pre ++ c :: post)
    (hpre : ∀ x ∈ pre, commentOverride (tagVersionOf t.name) x = none)
    (hov : commentOverride (tagVersionOf t.name) c = some v)
    (versionType : String) :
    getNextVersion ⟨id, ⟨t :: rest⟩, brs, ⟨pr :: prtl⟩⟩ versionType = v := by
  show tagsNext (pr :: prtl) versionType (t :: rest) = v
  rw [tagsNext_cons_pr, hcomments, scanComments_first_some _ _ _ _ _ hpre hov]

/-- C1 witness: with comments `hello`, `@krytenbot setversion major`,
`@krytenbot setversion patch` (in that order), the earliest valid
set-version comment (`major`) decides: the result is `2.0.0` even though
the caller requested `patch`. -/
theorem getNextVersion_earliest_override_witness :
    getNextVersion ⟨"id", ⟨[⟨"proj@v1.2.3"⟩]⟩, ⟨[]⟩,
        ⟨[⟨"p", 5, "t", "b", "c", "l", "main", "krytenbot-proj",
          [⟨"user", "hello"⟩,
           ⟨"user", "@krytenbot setversion major"⟩,
           ⟨"user", "@krytenbot setversion patch"⟩]⟩]⟩⟩ "patch" = "2.0.0" :=
  getNextVersion_earliest_override "id" ⟨[]⟩ ⟨"proj@v1.2.3"⟩ [] ⟨"p", 5, "t", "b", "c", "l",
      "main", "krytenbot-proj",
      [⟨"user", "hello"⟩,
       ⟨"user", "@krytenbot setversion major"⟩,
       ⟨"user", "@krytenbot setversion patch"⟩]⟩ []
    [⟨"user", "hello"⟩] [⟨"user", "@krytenbot setversion patch"⟩]
    ⟨"user", "@krytenbot setversion major"⟩ "2.0.0" rfl
    (by intro x hx; rw [List.mem_singleton] at hx; subst hx; decide)
    (by decide) "patch"

/-- C3 counterexample: with the single malformed tag `proj@vgarbage` and
requested bump `patch`, `getNextVersion` RETURNS the default version
`0.0.1` — a plain version value, with no error outcome of any kind — even
though the extracted current version `garbage` does not parse. -/
theorem getNextVersion_no_error_counterexample :
    getNextVersion ⟨"id", ⟨[⟨"proj@vgarbage"⟩]⟩, ⟨[]⟩, ⟨[]⟩⟩ "patch" = "0.0.1" ∧
    semverInc (tagVersionOf "proj@vgarbage") "patch" = none := by
  refine ⟨by decide, by decide⟩

/-- C3 amended: when the bump fails for every tag (malformed current
version or unrecognised bump type) and no comment override succeeds,
`getNextVersion` silently falls back to the default version `0.0.1`; the
function has no error outcome. -/
theorem getNextVersion_default_on_failure (id : String) (brs : Branches) (tags : List Tag)
    (prs : List PullRequest) (versionType : String)
    (hfail : ∀ t ∈ tags, semverInc (tagVersionOf t.name) versionType = none)
    (hnoov : ∀ t ∈ tags, ∀ pr ∈ prs, ∀ c ∈ pr.comments,
      commentOverride (tagVersionOf t.name) c = none) :
    getNextVersion ⟨id, ⟨tags⟩, brs, ⟨prs⟩⟩ versionType = "0.0.1" := by
  show tagsNext prs versionType tags = "0.0.1"
  induction tags with
  | nil => rfl
  | cons t rest ih =>
    have ih' := ih (fun x hx => hfail x (List.mem_cons_of_mem t hx))
      (fun x hx => hnoov x (List.mem_cons_of_mem t hx))
    cases prs with
    | nil =>
      rw [tagsNext_cons_nil, hfail t (List.mem_cons_self t rest)]
      exact ih'
    | cons pr tl =>
      have hnone : scanComments (tagVersionOf t.name) pr.comments = none :=
        scanComments_of_all_none _ _ fun x hx =>
          hnoov t (List.mem_cons_self t rest) pr (List.mem_cons_self pr tl) x hx
      rw [tagsNext_cons_pr, hnone, hfail t (List.mem_cons_self t rest)]
      exact ih'

/-- C3 witness: a well-formed tag with an unrecognised bump type `bogus`
also produces the default `0.0.1` instead of an error. -/
theorem getNextVersion_default_on_failure_witness :
    getNextVersion ⟨"id", ⟨[⟨"proj@v1.2.3"⟩]⟩, ⟨[]⟩, ⟨[]⟩⟩ "bogus" = "0.0.1" :=
  getNextVersion_default_on_failure "id" ⟨[]⟩ [⟨"proj@v1.2.3"⟩] [] "bogus"
    (by decide) (by intro t ht pr hpr; cases hpr)

/-- C4: evaluating `listProjectsOfRelevance` at the claimed input: the code
returns the EMPTY list, not `[core]`, because `minimatch` does not let `*`
cross a path separator, so `core/src/x.ts` fails the configured glob
`core/*` (while a direct child such as `core/x.ts` would match). -/
theorem listProjectsOfRelevance_nested_path_bug :
    listProjectsOfRelevance ["core/src/x.ts", "docs/readme.md"] = [] ∧
    minimatch "core/src/x.ts" "core/*" = false ∧
    minimatch "core/x.ts" "core/*" = true := by
  refine ⟨by decide, by decide, by decide⟩

/-! Invariant of the relevance filter: results are configured projects,
without duplicates. -/

theorem insertUnique_inv (l : List String) (x : String) (hx : x ∈ projects)
    (h : (∀ y ∈ l, y ∈ projects) ∧ l.Nodup) :
    (∀ y ∈ insertUnique l x, y ∈ projects) ∧ (insertUnique l x).Nodup := by
  obtain ⟨hs, hn⟩ := h
  unfold insertUnique
  by_cases hmem : x ∈ l
  · simpa [hmem] using ⟨hs, hn⟩
  · rw [if_neg hmem]
    constructor
    · intro y hy
      rcases List.mem_append.mp hy with h1 | h1
      · exact hs y h1
      · rw [List.mem_singleton] at h1; subst h1; exact hx
    · rw [List.nodup_append]
      refine ⟨hn, List.nodup_singleton x, ?_⟩
      intro a ha hax
      rw [List.mem_singleton] at hax
      subst hax
      exact hmem ha

theorem relevanceFold_inv (file : String) (pps : List (String × String)) :
    ∀ acc : List String,
      (∀ pp ∈ pps, pp.1 ∈ projects) →
      ((∀ y ∈ acc, y ∈ projects) ∧ acc.Nodup) →
      (∀ y ∈ pps.foldl
          (fun acc2 pp => if minimatch file pp.2 then insertUnique acc2 pp.1 else acc2) acc,
        y ∈ projects) ∧
      (pps.foldl
          (fun acc2 pp => if minimatch file pp.2 then insertUnique acc2 pp.1 else acc2)
          acc).Nodup := by
  induction pps with
  | nil => intro acc _ h; exact h
  | cons p ps ih =>
    intro acc hp h
    simp only [List.foldl_cons]
    by_cases hm : minimatch file p.2
    · rw [if_pos hm]
      exact ih _ (fun x hx => hp x (List.mem_cons_of_mem p hx))
        (insertUnique_inv acc p.1 (hp p (List.mem_cons_self p ps)) h)
    · rw [if_neg hm]
      exact ih _ (fun x hx => hp x (List.mem_cons_of_mem p hx)) h

theorem relevanceOuter_inv (files : List String) :
    ∀ acc : List String,
      ((∀ y ∈ acc, y ∈ projects) ∧ acc.Nodup) →
      (∀ y ∈ files.foldl
          (fun acc file =>
            (projects.zip projectsPaths).foldl
              (fun acc2 pp => if minimatch file pp.2 then insertUnique acc2 pp.1 else acc2)
              acc) acc,
        y ∈ projects) ∧
      (files.foldl
          (fun acc file =>
            (projects.zip projectsPaths).foldl
              (fun acc2 pp => if minimatch file pp.2 then insertUnique acc2 pp.1 else acc2)
              acc) acc).Nodup := by
  induction files with
  | nil => intro acc h; exact h
  | cons f fs ih =>
    intro acc h
    simp only [List.foldl_cons]
    exact ih _ (relevanceFold_inv f (projects.zip projectsPaths) acc (by decide) h)

/-- C10: every element of `listProjectsOfRelevance files` is one of the
statically configured project identifiers and no identifier appears more
than once in the output, for every input list of file paths. -/
theorem listProjectsOfRelevance_subset_nodup (files : List String) :
    (listProjectsOfRelevance files).all (fun x => projects.contains x) = true ∧
    (listProjectsOfRelevance files).Nodup := by
  have h := relevanceOuter_inv files [] ⟨fun y hy => absurd hy (List.not_mem_nil y), List.nodup_nil⟩
  refine ⟨?_, h.2⟩
  rw [List.all_eq_true]
  intro x hx
  exact List.elem_eq_true_of_mem (h.1 x hx)

/-- C6: a comment body that starts with the set-version command prefix but
whose third whitespace-separated token is missing or not one of `major`,
`minor`, `patch` makes the comment-event handler fail with the invalid
version type (the `core.setFailed` branch), an outcome distinct from
treating the body as not-a-command, with no version mutation performed. -/
theorem issueCommentOutcome_invalid_argument (body : String)
    (hcmd : strStartsWith body Commands.SetVersion = true)
    (hbad : (((splitOnChar ' ' body.data)[2]?).map
        (fun t => isValidSemverVersionType (String.mk t))).getD false = false) :
    (∃ tok, issueCommentOutcome body = .invalidCommandArgument tok) ∧
    issueCommentOutcome body ≠ .notACommand ∧
    ∀ t, issueCommentOutcome body ≠ .setVersionApplied t := by
  unfold issueCommentOutcome
  rw [hcmd]
  rw [if_pos rfl]
  cases htok : (splitOnChar ' ' body.data)[2]? with
  | none => exact ⟨⟨none, rfl⟩, by simp, by intro t; simp⟩
  | some tok =>
    rw [htok] at hbad
    simp only [Option.map_some', Option.getD_some] at hbad
    refine ⟨⟨some (String.mk tok), by simp [hbad]⟩, by simp [hbad], fun t => by simp [hbad]⟩

/-! Marker round-trip: the project identifier hidden in a pull-request body
is recovered by `extractProjectNameFromPR`. -/

theorem takeWhile_append_stop (p : Char → Bool) (l : List Char) (c : Char) (t : List Char)
    (hl : ∀ x ∈ l, p x = true) (hc : p c = false) :
    (l ++ c :: t).takeWhile p = l := by
  induction l with
  | nil => simp [List.takeWhile_cons, hc]
  | cons a as ih =>
    have ha := hl a (List.mem_cons_self a as)
    simp [List.takeWhile_cons, ha, ih fun x hx => hl x (List.mem_cons_of_mem a hx)]

theorem extractAt_marker (p X : List Char) (hne : p ≠ [])
    (hw : ∀ x ∈ p, wordChar x = true) :
    extractAt ('[' :: '/' :: '/' :: ']' :: ':' :: ' ' :: '#' :: ' ' :: '(' :: 'k' :: 'r' :: 'y'
        :: 't' :: 'e' :: 'n' :: 'b' :: 'o' :: 't' :: '-' :: 'p' :: 'r' :: 'o' :: 'j' :: 'e'
        :: 'c' :: 't' :: ':' :: (p ++ ')' :: X)) = some (String.mk p) := by
  have hrun : (p ++ ')' :: X).takeWhile wordChar = p :=
    takeWhile_append_stop wordChar p ')' X hw (by decide)
  have hempty : p.isEmpty = false := by
    cases p with
    | nil => exact absurd rfl hne
    | cons a as => rfl
  have hred : extractAt ('[' :: '/' :: '/' :: ']' :: ':' :: ' ' :: '#' :: ' ' :: '(' :: 'k'
        :: 'r' :: 'y' :: 't' :: 'e' :: 'n' :: 'b' :: 'o' :: 't' :: '-' :: 'p' :: 'r' :: 'o'
        :: 'j' :: 'e' :: 'c' :: 't' :: ':' :: (p ++ ')' :: X))
      = (match (p ++ ')' :: X).drop ((p ++ ')' :: X).takeWhile wordChar).length with
         | ')' :: _ =>
           if ((p ++ ')' :: X).takeWhile wordChar).isEmpty then none
           else some (String.mk ((p ++ ')' :: X).takeWhile wordChar))
         | _ => none) := rfl
  rw [hred, hrun, List.drop_left]
  simp [hempty]

theorem extractScan_cons_some (c : Char) (rest : List Char) (r : String)
    (h : extractAt (c :: rest) = some r) : extractScan (c :: rest) = some r := by
  simp [extractScan, h]

/-- C9: for every project identifier made of word characters, the
pull-request body produced by `getPullRequestBody` contains the hidden
project marker (it is a prefix of the body), and
`extractProjectNameFromPR` applied to that body recovers exactly the
project identifier. -/
theorem marker_roundtrip (project nextVersion : String) (rebasing : Bool)
    (hne : project.data ≠ []) (hw : ∀ x ∈ project.data, wordChar x = true) :
    (∃ rest, (getPullRequestBody project nextVersion rebasing).data
        = (hidden ("krytenbot-project:" ++ project)).data ++ rest) ∧
    extractProjectNameFromPR (getPullRequestBody project nextVersion rebasing) = some project := by
  have hbody : (getPullRequestBody project nextVersion rebasing).data
      = '[' :: '/' :: '/' :: ']' :: ':' :: ' ' :: '#' :: ' ' :: '(' :: 'k' :: 'r' :: 'y' :: 't'
        :: 'e' :: 'n' :: 'b' :: 'o' :: 't' :: '-' :: 'p' :: 'r' :: 'o' :: 'j' :: 'e' :: 'c'
        :: 't' :: ':'
        :: (project.data ++ ')' :: '\n'
            :: ((if rebasing then
                  hidden "krytenbot-start" ++ "\n\n" ++ important "Krytenbot is rebasing this PR"
                    ++ "\n\n" ++ hidden "krytenbot-end" ++ "\n"
                 else "") ++ prBodyTemplate nextVersion).data) := by
    simp only [getPullRequestBody, hidden, String.data_append, List.append_assoc,
      List.cons_append, List.nil_append]
  constructor
  · refine ⟨("\n" ++ ((if rebasing then
        hidden "krytenbot-start" ++ "\n\n" ++ important "Krytenbot is rebasing this PR"
          ++ "\n\n" ++ hidden "krytenbot-end" ++ "\n"
        else "") ++ prBodyTemplate nextVersion)).data, ?_⟩
    simp only [getPullRequestBody, hidden, String.data_append, List.append_assoc]
  · show extractScan (getPullRequestBody project nextVersion rebasing).data = some project
    rw [hbody]
    exact extractScan_cons_some _ _ _ (extractAt_marker project.data _ hne hw)

/-- C9 witness: embedding project `core` in a fresh pull-request body and
extracting it again yields `core`. -/
theorem marker_roundtrip_witness :
    extractProjectNameFromPR (getPullRequestBody "core" "1.2.3" false) = some "core" :=
  (marker_roundtrip "core" "1.2.3" false (by decide) (by decide)).2

/-- C6 witness: the stale command `@krytenbot setversion bogus` is reported
as an invalid argument, not ignored as a non-command. -/
theorem issueCommentOutcome_invalid_argument_witness :
    issueCommentOutcome "@krytenbot setversion bogus"
        = CommentOutcome.invalidCommandArgument (some "bogus") ∧
    issueCommentOutcome "@krytenbot setversion bogus" ≠ CommentOutcome.notACommand :=
  ⟨by decide,
   (issueCommentOutcome_invalid_argument "@krytenbot setversion bogus"
      (by decide) (by decide)).2.1⟩

/-! Lemmas for the manifest patcher: leftmost-greedy behaviour of the
embedded regex replace. -/

theorem contains_false_not_mem {l : List Char} {a : Char} (h : l.contains a = false) :
    a ∉ l := by
  intro hm
  rw [show l.contains a = List.elem a l from rfl, List.elem_iff.mpr hm] at h
  simp at h

theorem substGo_no_dollar (m pre post cap : List Char) (l : List Char)
    (h : ∀ c ∈ l, c ≠ '$') : substGo m pre post cap 0 l = l := by
  induction l with
  | nil => rfl
  | cons c t ih =>
    have hc : c ≠ '$' := h c (List.mem_cons_self c t)
    have hred : substGo m pre post cap 0 (c :: t)
        = if c = '$' then substGo m pre post cap 1 t
          else c :: substGo m pre post cap 0 t := rfl
    rw [hred, if_neg hc, ih fun x hx => h x (List.mem_cons_of_mem c hx)]

theorem substTemplate_no_dollar (m pre post cap l : List Char)
    (h : ∀ c ∈ l, c ≠ '$') : substTemplate m pre post cap l = l :=
  substGo_no_dollar m pre post cap l h

theorem greedyQuote_cons (c : Char) (cs : List Char) :
    greedyQuote (c :: cs) =
      if jsDot c then
        match greedyQuote cs with
        | some (cap, rest) => some (c :: cap, rest)
        | none => if c = '"' then some ([], cs) else none
      else none := rfl

theorem greedyQuote_no_quote (r : List Char)
    (h : '"' ∉ r.takeWhile jsDot) : greedyQuote r = none := by
  induction r with
  | nil => rfl
  | cons c cs ih =>
    rw [greedyQuote_cons]
    by_cases hdot : jsDot c = true
    · rw [List.takeWhile_cons, if_pos hdot] at h
      have hc : c ≠ '"' := fun he => h (he ▸ List.mem_cons_self c _)
      have ht : '"' ∉ cs.takeWhile jsDot := fun hm => h (List.mem_cons_of_mem c hm)
      rw [if_pos hdot, ih ht]
      exact if_neg hc
    · exact if_neg hdot

theorem greedyQuote_clean (val post : List Char)
    (hval : ∀ x ∈ val, jsDot x = true) (hvq : '"' ∉ val)
    (hpq : '"' ∉ post.takeWhile jsDot) :
    greedyQuote (val ++ '"' :: post) = some (val, post) := by
  induction val with
  | nil =>
    rw [List.nil_append, greedyQuote_cons, if_pos (by decide),
      greedyQuote_no_quote post hpq]
    exact if_pos rfl
  | cons a as ih =>
    have ha : jsDot a = true := hval a (List.mem_cons_self a as)
    have haq : a ≠ '"' := fun he => hvq (he ▸ List.mem_cons_self a as)
    rw [List.cons_append, greedyQuote_cons, if_pos ha,
      ih (fun x hx => hval x (List.mem_cons_of_mem a hx))
        (fun hm => hvq (List.mem_cons_of_mem a hm))]

theorem findVersionMatch_cons (c : Char) (cs : List Char) :
    findVersionMatch (c :: cs) =
      if versionLit.isPrefixOf (c :: cs) then
        match greedyQuote ((c :: cs).drop versionLit.length) with
        | some (cap, rest) => some ([], cap, rest)
        | none =>
          match findVersionMatch cs with
          | some (before, cap, rest) => some (c :: before, cap, rest)
          | none => none
      else
        match findVersionMatch cs with
        | some (before, cap, rest) => some (c :: before, cap, rest)
        | none => none := rfl

theorem lit_not_prefix_append (a b : List Char) (hlen : versionLit.length ≤ a.length)
    (h : versionLit.isPrefixOf a = false) : versionLit.isPrefixOf (a ++ b) = false := by
  by_contra hcon
  have h1 : versionLit.isPrefixOf (a ++ b) = true := by
    cases hx : versionLit.isPrefixOf (a ++ b) with
    | true => rfl
    | false => exact absurd hx hcon
  have h3 : versionLit = (a ++ b).take versionLit.length :=
    List.prefix_iff_eq_take.mp (List.isPrefixOf_iff_prefix.mp h1)
  have h4 : (a ++ b).take versionLit.length = a.take versionLit.length := by
    rw [List.take_append_eq_append_take, Nat.sub_eq_zero_of_le hlen, List.take_zero,
      List.append_nil]
  have h5 : versionLit <+: a := List.prefix_iff_eq_take.mpr (h3.trans h4)
  rw [List.isPrefixOf_iff_prefix.mpr h5] at h
  simp at h

theorem versionFieldAt_shift (c : Char) (cs : List Char) (i : Nat) :
    versionFieldAt (c :: cs) (i + 1) = versionFieldAt cs i := by
  have h2 : (c :: cs).drop (i + 1 + versionLit.length) = cs.drop (i + versionLit.length) := by
    have he : i + 1 + versionLit.length = (i + versionLit.length) + 1 := by omega
    rw [he, List.drop_succ_cons]
  simp only [versionFieldAt, List.drop_succ_cons, h2]

theorem versionFieldAt_ge (s : List Char) (i : Nat) (h : s.length ≤ i) :
    versionFieldAt s i = false := by
  have hnil : s.drop i = [] := List.drop_eq_nil_of_le h
  simp only [versionFieldAt, hnil]
  rfl

theorem findVersionMatch_none (s : List Char)
    (h : ∀ i, versionFieldAt s i = false) : findVersionMatch s = none := by
  induction s with
  | nil => rfl
  | cons c cs ih =>
    have hshift : ∀ i, versionFieldAt cs i = false := fun i => by
      rw [← versionFieldAt_shift c cs i]; exact h (i + 1)
    rw [findVersionMatch_cons]
    by_cases hp : versionLit.isPrefixOf (c :: cs) = true
    · have h0 := h 0
      simp only [versionFieldAt, List.drop_zero, Nat.zero_add, hp, Bool.true_and] at h0
      have hqm : '"' ∉ ((c :: cs).drop versionLit.length).takeWhile jsDot :=
        contains_false_not_mem h0
      rw [if_pos hp, greedyQuote_no_quote _ hqm, ih hshift]
    · rw [if_neg hp, ih hshift]

theorem findVersionMatch_found (pre val post : List Char)
    (hpre : ∀ i < pre.length, versionLit.isPrefixOf ((pre ++ versionLit).drop i) = false)
    (hval : ∀ x ∈ val, jsDot x = true) (hvq : '"' ∉ val)
    (hpq : '"' ∉ post.takeWhile jsDot) :
    findVersionMatch (pre ++ versionLit ++ val ++ '"' :: post) = some (pre, val, post) := by
  induction pre with
  | nil =>
    simp only [List.nil_append, List.append_assoc]
    rw [show versionLit ++ (val ++ '"' :: post)
        = '"' :: (("version\": \"").data ++ (val ++ '"' :: post)) from rfl]
    rw [findVersionMatch_cons]
    have hp : versionLit.isPrefixOf
        ('"' :: (("version\": \"").data ++ (val ++ '"' :: post))) = true := by
      rw [show '"' :: (("version\": \"").data ++ (val ++ '"' :: post))
          = versionLit ++ (val ++ '"' :: post) from rfl]
      exact List.isPrefixOf_iff_prefix.mpr (List.prefix_append _ _)
    rw [if_pos hp]
    have hdrop : ('"' :: (("version\": \"").data ++ (val ++ '"' :: post))).drop versionLit.length
        = val ++ '"' :: post := by
      rw [show '"' :: (("version\": \"").data ++ (val ++ '"' :: post))
          = versionLit ++ (val ++ '"' :: post) from rfl]
      exact List.drop_left _ _
    rw [hdrop, greedyQuote_clean val post hval hvq hpq]
  | cons a as ih =>
    simp only [List.cons_append, List.append_assoc]
    rw [findVersionMatch_cons]
    have h0 := hpre 0 (by simp)
    have hfalse : versionLit.isPrefixOf
        (a :: (as ++ (versionLit ++ (val ++ '"' :: post)))) = false := by
      have hassoc : a :: (as ++ (versionLit ++ (val ++ '"' :: post)))
          = ((a :: as) ++ versionLit) ++ (val ++ '"' :: post) := by
        simp [List.append_assoc]
      rw [hassoc]
      apply lit_not_prefix_append
      · simp only [List.length_append, List.length_cons]
        omega
      · simpa using h0
    rw [if_neg (by simp [hfalse])]
    have hpre' : ∀ i < as.length, versionLit.isPrefixOf ((as ++ versionLit).drop i) = false := by
      intro i hi
      have hh := hpre (i + 1) (by simp only [List.length_cons]; omega)
      rw [List.cons_append, List.drop_succ_cons] at hh
      exact hh
    have ih' := ih hpre'
    simp only [List.append_assoc] at ih'
    rw [ih']

/-- Core frame property of the patcher: on a manifest decomposed around its
first version field (with a cleanly delimited value), the replacement
rewrites exactly the field's value and nothing else. -/
theorem patch_structured (text v : String) (pre val post : List Char)
    (htext : text.data = pre ++ versionLit ++ val ++ '"' :: post)
    (hpre : ∀ i < pre.length, versionLit.isPrefixOf ((pre ++ versionLit).drop i) = false)
    (hval : ∀ x ∈ val, jsDot x = true) (hvq : '"' ∉ val)
    (hpq : '"' ∉ post.takeWhile jsDot) (hd : ∀ c ∈ v.data, c ≠ '$') :
    patchPackageJson text v = String.mk (pre ++ versionLit ++ v.data ++ '"' :: post) := by
  unfold patchPackageJson
  rw [htext, findVersionMatch_found pre val post hpre hval hvq hpq]
  show String.mk (pre ++ substTemplate (versionLit ++ val ++ ['"']) pre post val
      (versionLit ++ v.data ++ ['"']) ++ post)
    = String.mk (pre ++ versionLit ++ v.data ++ '"' :: post)
  have hsub : substTemplate (versionLit ++ val ++ ['"']) pre post val
      (versionLit ++ v.data ++ ['"']) = versionLit ++ v.data ++ ['"'] := by
    apply substTemplate_no_dollar
    intro c hc
    rcases List.mem_append.mp hc with h1 | h1
    · rcases List.mem_append.mp h1 with h2 | h2
      · exact (by decide : ∀ c ∈ versionLit, c ≠ '$') c h2
      · exact hd c h2
    · rw [List.mem_singleton] at h1; subst h1; decide
  rw [hsub]
  congr 1
  simp [List.append_assoc]

theorem versionChar_spec {c : Char} (h : versionChar c = true) :
    jsDot c = true ∧ c ≠ '"' ∧ c ≠ '$' := by
  simp only [versionChar, Bool.and_eq_true, decide_eq_true_eq] at h
  exact ⟨h.1.1, h.1.2, h.2⟩

/-- C7: `patchPackageJson` replaces at most the first occurrence of the
version-field pattern, leaving every byte before the matched field and
every byte after it unchanged; and on a manifest with no occurrence of the
pattern it returns its input byte-for-byte (a miss is not an error). -/
theorem patchPackageJson_first_only (text v : String) :
    ((∀ i ≤ text.data.length, versionFieldAt text.data i = false) →
        patchPackageJson text v = text) ∧
    (∀ pre val post : List Char,
        text.data = pre ++ versionLit ++ val ++ '"' :: post →
        (∀ i < pre.length, versionLit.isPrefixOf ((pre ++ versionLit).drop i) = false) →
        (∀ x ∈ val, jsDot x = true) → '"' ∉ val → '"' ∉ post.takeWhile jsDot →
        (∀ c ∈ v.data, c ≠ '$') →
        patchPackageJson text v = String.mk (pre ++ versionLit ++ v.data ++ '"' :: post)) := by
  constructor
  · intro h
    have hall : ∀ i, versionFieldAt text.data i = false := by
      intro i
      by_cases hle : i ≤ text.data.length
      · exact h i hle
      · exact versionFieldAt_ge _ _ (by omega)
    unfold patchPackageJson
    rw [findVersionMatch_none _ hall]
  · intro pre val post htext hpre hval hvq hpq hd
    exact patch_structured text v pre val post htext hpre hval hvq hpq hd

/-- C7 witness: a manifest without a version field is returned unchanged,
and a two-field manifest has exactly its version value replaced. -/
theorem patchPackageJson_first_only_witness :
    patchPackageJson "no version field" "9.9.9" = "no version field" ∧
    patchPackageJson "  \"version\": \"1.0.0\",\n  \"name\": \"core\"" "2.0.0"
      = "  \"version\": \"2.0.0\",\n  \"name\": \"core\"" := by
  constructor
  · exact (patchPackageJson_first_only "no version field" "9.9.9").1 (by decide)
  · exact ((patchPackageJson_first_only "  \"version\": \"1.0.0\",\n  \"name\": \"core\""
        "2.0.0").2 [' ', ' '] ("1.0.0").data (",\n  \"name\": \"core\"").data
        (by decide) (by decide) (by decide) (by decide) (by decide) (by decide)).trans
      (by decide)

/-- C8: patching twice (first with `v1`, then with `v2`) leaves every byte
outside the version field's value exactly as in the original manifest, and
the resulting version field value is exactly `v2`. -/
theorem patchPackageJson_roundtrip (text v1 v2 : String) (pre val post : List Char)
    (htext : text.data = pre ++ versionLit ++ val ++ '"' :: post)
    (hpre : ∀ i < pre.length, versionLit.isPrefixOf ((pre ++ versionLit).drop i) = false)
    (hval : ∀ x ∈ val, jsDot x = true) (hvq : '"' ∉ val)
    (hpq : '"' ∉ post.takeWhile jsDot)
    (hv1 : ∀ c ∈ v1.data, versionChar c = true)
    (hv2 : ∀ c ∈ v2.data, versionChar c = true) :
    patchPackageJson (patchPackageJson text v1) v2
      = String.mk (pre ++ versionLit ++ v2.data ++ '"' :: post) := by
  have hv1dot : ∀ x ∈ v1.data, jsDot x = true := fun x hx => (versionChar_spec (hv1 x hx)).1
  have hv1q : '"' ∉ v1.data := fun hm => (versionChar_spec (hv1 '"' hm)).2.1 rfl
  have hv1d : ∀ c ∈ v1.data, c ≠ '$' := fun c hc => (versionChar_spec (hv1 c hc)).2.2
  have hv2d : ∀ c ∈ v2.data, c ≠ '$' := fun c hc => (versionChar_spec (hv2 c hc)).2.2
  rw [patch_structured text v1 pre val post htext hpre hval hvq hpq hv1d]
  exact patch_structured _ v2 pre v1.data post rfl hpre hv1dot hv1q hpq hv2d

/-- C8 witness: patching a two-field manifest with `1.9.9` and then `2.0.0`
yields the original manifest with its version field set to `2.0.0`. -/
theorem patchPackageJson_roundtrip_witness :
    patchPackageJson
        (patchPackageJson "  \"version\": \"1.0.0\",\n  \"name\": \"grid\"" "1.9.9") "2.0.0"
      = "  \"version\": \"2.0.0\",\n  \"name\": \"grid\"" :=
  (patchPackageJson_roundtrip "  \"version\": \"1.0.0\",\n  \"name\": \"grid\"" "1.9.9" "2.0.0"
    [' ', ' '] ("1.0.0").data (",\n  \"name\": \"grid\"").data (by decide) (by decide)
    (by decide) (by decide) (by decide) (by decide) (by decide)).trans (by decide)

end Krytenbot
